import Mathlib

set_option maxHeartbeats 1000000

/-
Verification of the dependency version resolution and caching layer of
vscode-npm-outdated.

The development shallowly embeds:
  * the semantic-versioning comparison and range satisfaction used by the
    source through the `semver` npm library (`prerelease`, `maxSatisfying`,
    `coerce`, `gt`, the ranges `>=0` and `^v`), restricted to the shapes of
    ranges the source actually builds;
  * `getPackageLatestVersion`, `getPackageVersions` and
    `getPackagesInstalled` from the NPM module;
  * `versionClear`, `lazyCallback` and `promiseLimit` from `src/Utils.ts`.

Versions are modelled as parsed, canonical semver values (major, minor,
patch, prerelease identifier list); npm registries only serve canonical
version strings, so string equality in the source coincides with structural
equality here.  Build metadata is not modelled (never produced by `npm view`
version lists).
-/

namespace NpmOutdated

/-- A semver prerelease identifier: numeric, or alphanumeric compared by
JS code-unit order (modelled as the identifier's character list). -/
inductive PreId where
  | num (n : Nat)
  | str (s : List Char)
  deriving DecidableEq

/-- A parsed semver version. -/
structure Version where
  major : Nat
  minor : Nat
  patch : Nat
  pre : List PreId
  deriving DecidableEq

/-- JS code-unit lexicographic comparison of identifier text, as used by
semver's `compareIdentifiers` for alphanumeric prerelease identifiers. -/
def strLtb : List Char → List Char → Bool
  | [], [] => false
  | [], _ :: _ => true
  | _ :: _, [] => false
  | a :: as, b :: bs => if a = b then strLtb as bs else decide (a < b)

/-- Prerelease identifier precedence: numeric identifiers compare
numerically and are lower than alphanumeric identifiers. -/
def preIdLtb : PreId → PreId → Bool
  | .num a, .num b => decide (a < b)
  | .num _, .str _ => true
  | .str _, .num _ => false
  | .str a, .str b => strLtb a b

/-- Precedence on two nonempty prerelease identifier lists: componentwise,
with a strict prefix having lower precedence. -/
def preListLtb : List PreId → List PreId → Bool
  | [], [] => false
  | [], _ :: _ => true
  | _ :: _, [] => false
  | a :: as, b :: bs => if a = b then preListLtb as bs else preIdLtb a b

/-- Precedence on prerelease components of versions with equal triples:
a version without prerelease has higher precedence than any prerelease. -/
def preLtb : List PreId → List PreId → Bool
  | [], _ => false
  | _ :: _, [] => true
  | a :: as, b :: bs => preListLtb (a :: as) (b :: bs)

/-- Strict lexicographic comparison of the numeric triples. -/
def tripleLtb (a b : Version) : Bool :=
  decide (a.major < b.major ∨ (a.major = b.major ∧
    (a.minor < b.minor ∨ (a.minor = b.minor ∧ a.patch < b.patch))))

/-- Equality of the numeric triples. -/
def tripleEqb (a b : Version) : Bool :=
  decide (a.major = b.major ∧ a.minor = b.minor ∧ a.patch = b.patch)

/-- Strict semver precedence, `semver.lt`/`semver.gt`'s underlying order. -/
def vLtb (a b : Version) : Bool :=
  tripleLtb a b || (tripleEqb a b && preLtb a.pre b.pre)

theorem strLtb_irrefl : ∀ s : List Char, strLtb s s = false := by
  intro s
  induction s with
  | nil => rfl
  | cons a as ih => simp [strLtb, ih]

theorem strLtb_trans : ∀ (a b c : List Char),
    strLtb a b = true → strLtb b c = true → strLtb a c = true := by
  intro a
  induction a with
  | nil =>
    intro b c h1 h2
    cases b with
    | nil => simp [strLtb] at h1
    | cons y ys =>
      cases c with
      | nil => simp [strLtb] at h2
      | cons z zs => rfl
  | cons x xs ih =>
    intro b c h1 h2
    cases b with
    | nil => simp [strLtb] at h1
    | cons y ys =>
      cases c with
      | nil => simp [strLtb] at h2
      | cons z zs =>
        simp only [strLtb] at h1 h2 ⊢
        by_cases hxy : x = y
        · subst hxy
          rw [if_pos rfl] at h1
          by_cases hyz : x = z
          · subst hyz
            rw [if_pos rfl] at h2
            rw [if_pos rfl]
            exact ih ys zs h1 h2
          · rw [if_neg hyz] at h2
            rw [if_neg hyz]
            exact h2
        · rw [if_neg hxy] at h1
          by_cases hyz : y = z
          · subst hyz
            rw [if_neg hxy]
            exact h1
          · rw [if_neg hyz] at h2
            have hlt1 : x < y := of_decide_eq_true h1
            have hlt2 : y < z := of_decide_eq_true h2
            have hxz : x ≠ z := by
              intro he
              subst he
              exact absurd (lt_trans hlt1 hlt2) (lt_irrefl x)
            rw [if_neg hxz]
            exact decide_eq_true (lt_trans hlt1 hlt2)

theorem strLtb_eq_of_not_lt : ∀ (a b : List Char),
    strLtb a b = false → strLtb b a = false → a = b := by
  intro a
  induction a with
  | nil =>
    intro b h1 _
    cases b with
    | nil => rfl
    | cons y ys => simp [strLtb] at h1
  | cons x xs ih =>
    intro b h1 h2
    cases b with
    | nil => simp [strLtb] at h2
    | cons y ys =>
      simp only [strLtb] at h1 h2
      by_cases hxy : x = y
      · subst hxy
        rw [if_pos rfl] at h1
        rw [if_pos rfl] at h2
        rw [ih ys h1 h2]
      · rw [if_neg hxy] at h1
        have hyx : y ≠ x := fun he => hxy he.symm
        rw [if_neg hyx] at h2
        have hn1 : ¬ x < y := of_decide_eq_false h1
        have hn2 : ¬ y < x := of_decide_eq_false h2
        exact absurd (lt_or_gt_of_ne hxy).elim (by
          intro h
          exact h (fun hl => hn1 hl) (fun hg => hn2 hg))

theorem preIdLtb_irrefl : ∀ p : PreId, preIdLtb p p = false := by
  intro p
  cases p with
  | num n => simp [preIdLtb]
  | str s => simp [preIdLtb, strLtb_irrefl]

theorem preIdLtb_trans : ∀ (a b c : PreId),
    preIdLtb a b = true → preIdLtb b c = true → preIdLtb a c = true := by
  intro a b c h1 h2
  cases a with
  | num na =>
    cases b with
    | num nb =>
      cases c with
      | num nc =>
        simp only [preIdLtb, decide_eq_true_eq] at h1 h2 ⊢
        omega
      | str _ => rfl
    | str sb =>
      cases c with
      | num nc => simp [preIdLtb] at h2
      | str _ => rfl
  | str sa =>
    cases b with
    | num nb => simp [preIdLtb] at h1
    | str sb =>
      cases c with
      | num nc => simp [preIdLtb] at h2
      | str sc =>
        simp only [preIdLtb] at h1 h2 ⊢
        exact strLtb_trans sa sb sc h1 h2

theorem preIdLtb_eq_of_not_lt : ∀ (a b : PreId),
    preIdLtb a b = false → preIdLtb b a = false → a = b := by
  intro a b h1 h2
  cases a with
  | num na =>
    cases b with
    | num nb =>
      simp only [preIdLtb, decide_eq_false_iff_not] at h1 h2
      have : na = nb := by omega
      rw [this]
    | str sb => simp [preIdLtb] at h1
  | str sa =>
    cases b with
    | num nb => simp [preIdLtb] at h2
    | str sb =>
      simp only [preIdLtb] at h1 h2
      rw [strLtb_eq_of_not_lt sa sb h1 h2]

theorem preIdLtb_asymm : ∀ (a b : PreId),
    preIdLtb a b = true → preIdLtb b a = true → False := by
  intro a b h1 h2
  have := preIdLtb_trans a b a h1 h2
  rw [preIdLtb_irrefl] at this
  exact Bool.false_ne_true this

theorem preListLtb_irrefl : ∀ p : List PreId, preListLtb p p = false := by
  intro p
  induction p with
  | nil => rfl
  | cons a as ih => simp [preListLtb, ih]

theorem preListLtb_trans : ∀ (p q r : List PreId),
    preListLtb p q = true → preListLtb q r = true → preListLtb p r = true := by
  intro p
  induction p with
  | nil =>
    intro q r h1 h2
    cases q with
    | nil => simp [preListLtb] at h1
    | cons y ys =>
      cases r with
      | nil => simp [preListLtb] at h2
      | cons z zs => rfl
  | cons x xs ih =>
    intro q r h1 h2
    cases q with
    | nil => simp [preListLtb] at h1
    | cons y ys =>
      cases r with
      | nil => simp [preListLtb] at h2
      | cons z zs =>
        simp only [preListLtb] at h1 h2 ⊢
        by_cases hxy : x = y
        · subst hxy
          rw [if_pos rfl] at h1
          by_cases hyz : x = z
          · subst hyz
            rw [if_pos rfl] at h2
            rw [if_pos rfl]
            exact ih ys zs h1 h2
          · rw [if_neg hyz] at h2
            rw [if_neg hyz]
            exact h2
        · rw [if_neg hxy] at h1
          by_cases hyz : y = z
          · subst hyz
            rw [if_neg hxy]
            exact h1
          · rw [if_neg hyz] at h2
            have hxz : x ≠ z := by
              intro he
              subst he
              exact preIdLtb_asymm x y h1 h2
            rw [if_neg hxz]
            exact preIdLtb_trans x y z h1 h2

theorem preListLtb_eq_of_not_lt : ∀ (p q : List PreId),
    preListLtb p q = false → preListLtb q p = false → p = q := by
  intro p
  induction p with
  | nil =>
    intro q h1 _
    cases q with
    | nil => rfl
    | cons y ys => simp [preListLtb] at h1
  | cons x xs ih =>
    intro q h1 h2
    cases q with
    | nil => simp [preListLtb] at h2
    | cons y ys =>
      simp only [preListLtb] at h1 h2
      by_cases hxy : x = y
      · subst hxy
        rw [if_pos rfl] at h1
        rw [if_pos rfl] at h2
        rw [ih ys h1 h2]
      · rw [if_neg hxy] at h1
        have hyx : y ≠ x := fun he => hxy he.symm
        rw [if_neg hyx] at h2
        exact absurd (preIdLtb_eq_of_not_lt x y h1 h2) hxy

theorem preLtb_irrefl : ∀ p : List PreId, preLtb p p = false := by
  intro p
  cases p with
  | nil => rfl
  | cons a as => simp [preLtb, preListLtb_irrefl]

theorem preLtb_trans : ∀ (p q r : List PreId),
    preLtb p q = true → preLtb q r = true → preLtb p r = true := by
  intro p q r h1 h2
  cases p with
  | nil => simp [preLtb] at h1
  | cons x xs =>
    cases q with
    | nil => simp [preLtb] at h2
    | cons y ys =>
      cases r with
      | nil => rfl
      | cons z zs =>
        simp only [preLtb] at h1 h2 ⊢
        exact preListLtb_trans _ _ _ h1 h2

theorem preLtb_eq_of_not_lt : ∀ (p q : List PreId),
    preLtb p q = false → preLtb q p = false → p = q := by
  intro p q h1 h2
  cases p with
  | nil =>
    cases q with
    | nil => rfl
    | cons y ys => simp [preLtb] at h2
  | cons x xs =>
    cases q with
    | nil => simp [preLtb] at h1
    | cons y ys =>
      simp only [preLtb] at h1 h2
      exact preListLtb_eq_of_not_lt _ _ h1 h2

theorem vLtb_irrefl : ∀ a : Version, vLtb a a = false := by
  intro a
  simp [vLtb, tripleLtb, tripleEqb, preLtb_irrefl]

theorem vLtb_trans : ∀ (a b c : Version),
    vLtb a b = true → vLtb b c = true → vLtb a c = true := by
  intro a b c h1 h2
  simp only [vLtb, tripleLtb, tripleEqb, Bool.or_eq_true, Bool.and_eq_true,
    decide_eq_true_eq] at h1 h2 ⊢
  rcases h1 with h1 | ⟨h1e, h1p⟩
  · rcases h2 with h2 | ⟨h2e, _⟩
    · left; omega
    · left; omega
  · rcases h2 with h2 | ⟨h2e, h2p⟩
    · left; omega
    · right
      refine ⟨by omega, preLtb_trans _ _ _ h1p h2p⟩

theorem vLtb_eq_of_not_lt : ∀ (a b : Version),
    vLtb a b = false → vLtb b a = false → a = b := by
  intro a b h1 h2
  simp only [vLtb, tripleLtb, tripleEqb, Bool.or_eq_false_iff,
    Bool.and_eq_false_iff, decide_eq_false_iff_not] at h1 h2
  obtain ⟨h1t, h1r⟩ := h1
  obtain ⟨h2t, h2r⟩ := h2
  have hmaj : a.major = b.major := by omega
  have hmin : a.minor = b.minor := by omega
  have hpat : a.patch = b.patch := by omega
  have hp1 : preLtb a.pre b.pre = false := by
    rcases h1r with h | h
    · exact absurd ⟨hmaj, hmin, hpat⟩ h
    · exact h
  have hp2 : preLtb b.pre a.pre = false := by
    rcases h2r with h | h
    · exact absurd ⟨hmaj.symm, hmin.symm, hpat.symm⟩ h
    · exact h
  have hpre : a.pre = b.pre := preLtb_eq_of_not_lt _ _ hp1 hp2
  cases a
  cases b
  simp only at hmaj hmin hpat hpre
  simp [hmaj, hmin, hpat, hpre]

theorem vLtb_asymm : ∀ (a b : Version),
    vLtb a b = true → vLtb b a = true → False := by
  intro a b h1 h2
  have := vLtb_trans a b a h1 h2
  rw [vLtb_irrefl] at this
  exact Bool.false_ne_true this

theorem vLtb_not_lt_trans : ∀ (a b c : Version),
    vLtb a b = false → vLtb b c = false → vLtb a c = false := by
  intro a b c h1 h2
  by_contra hac
  have hac' : vLtb a c = true := by
    cases h : vLtb a c with
    | false => exact absurd h hac
    | true => rfl
  cases hba : vLtb b a with
  | false =>
    have := vLtb_eq_of_not_lt a b h1 hba
    subst this
    rw [hac'] at h2
    exact Bool.false_ne_true h2.symm
  | true =>
    have := vLtb_trans b a c hba hac'
    rw [this] at h2
    exact Bool.false_ne_true h2.symm

/-- One reduction step of semver's `maxSatisfying`: keep the satisfying
candidate that is strictly greater than the best seen so far. -/
def maxSatStep (sat : Version → Bool) : Option Version → Version → Option Version
  | none, v => if sat v then some v else none
  | some m, v => if sat v then (if vLtb m v then some v else some m) else some m

/-- Model of `semver.maxSatisfying(versions, range)`, with the range given as its
satisfaction predicate: the greatest element of the list satisfying it. -/
def maxSat (versions : List Version) (sat : Version → Bool) : Option Version :=
  versions.foldl (maxSatStep sat) none

theorem maxSatStep_some (sat : Version → Bool) (m v : Version) :
    ∃ m', maxSatStep sat (some m) v = some m' := by
  simp only [maxSatStep]
  by_cases hs : sat v = true
  · rw [if_pos hs]
    by_cases hl : vLtb m v = true
    · exact ⟨v, by rw [if_pos hl]⟩
    · exact ⟨m, by rw [if_neg hl]⟩
  · exact ⟨m, by rw [if_neg hs]⟩

theorem maxSat_foldl_some (sat : Version → Bool) :
    ∀ (l : List Version) (m : Version),
      ∃ m', List.foldl (maxSatStep sat) (some m) l = some m' := by
  intro l
  induction l with
  | nil => intro m; exact ⟨m, rfl⟩
  | cons v vs ih =>
    intro m
    obtain ⟨m1, hm1⟩ := maxSatStep_some sat m v
    simp only [List.foldl, hm1]
    exact ih m1

theorem maxSat_foldl_mem_sat (sat : Version → Bool) :
    ∀ (l : List Version) (acc : Option Version) (m : Version),
      List.foldl (maxSatStep sat) acc l = some m →
      (m ∈ l ∧ sat m = true) ∨ acc = some m := by
  intro l
  induction l with
  | nil =>
    intro acc m h
    right
    simpa using h
  | cons v vs ih =>
    intro acc m h
    simp only [List.foldl] at h
    rcases ih (maxSatStep sat acc v) m h with h1 | h2
    · exact Or.inl ⟨List.mem_cons_of_mem _ h1.1, h1.2⟩
    · cases acc with
      | none =>
        simp only [maxSatStep] at h2
        by_cases hs : sat v = true
        · rw [if_pos hs] at h2
          have : v = m := by injection h2
          subst this
          exact Or.inl ⟨List.mem_cons_self _ _, hs⟩
        · rw [if_neg hs] at h2
          cases h2
      | some m0 =>
        simp only [maxSatStep] at h2
        by_cases hs : sat v = true
        · rw [if_pos hs] at h2
          by_cases hl : vLtb m0 v = true
          · rw [if_pos hl] at h2
            have : v = m := by injection h2
            subst this
            exact Or.inl ⟨List.mem_cons_self _ _, hs⟩
          · rw [if_neg hl] at h2
            exact Or.inr h2
        · rw [if_neg hs] at h2
          exact Or.inr h2

theorem maxSat_mem_sat (sat : Version → Bool) (l : List Version) (m : Version)
    (h : maxSat l sat = some m) : m ∈ l ∧ sat m = true := by
  rcases maxSat_foldl_mem_sat sat l none m h with h1 | h2
  · exact h1
  · cases h2

theorem maxSat_foldl_ub (sat : Version → Bool) :
    ∀ (l : List Version) (acc : Option Version) (m : Version),
      List.foldl (maxSatStep sat) acc l = some m →
      (∀ v ∈ l, sat v = true → vLtb m v = false) ∧
      (∀ a, acc = some a → vLtb m a = false) := by
  intro l
  induction l with
  | nil =>
    intro acc m h
    refine ⟨?_, ?_⟩
    · intro v hv
      cases hv
    · intro a ha
      simp only [List.foldl] at h
      rw [ha] at h
      have : a = m := by injection h
      subst this
      exact vLtb_irrefl a
  | cons v vs ih =>
    intro acc m h
    simp only [List.foldl] at h
    obtain ⟨ihl, iha⟩ := ih (maxSatStep sat acc v) m h
    have hmv : sat v = true → vLtb m v = false := by
      intro hs
      cases acc with
      | none =>
        simp only [maxSatStep, if_pos hs] at iha
        exact iha v rfl
      | some m0 =>
        simp only [maxSatStep, if_pos hs] at iha
        by_cases hl : vLtb m0 v = true
        · rw [if_pos hl] at iha
          exact iha v rfl
        · rw [if_neg hl] at iha
          have hm0 : vLtb m m0 = false := iha m0 rfl
          have hl' : vLtb m0 v = false := by
            cases hb : vLtb m0 v with
            | false => rfl
            | true => exact absurd hb hl
          exact vLtb_not_lt_trans m m0 v hm0 hl'
    refine ⟨?_, ?_⟩
    · intro u hu hsu
      rcases List.mem_cons.mp hu with h1 | h2
      · subst h1; exact hmv hsu
      · exact ihl u h2 hsu
    · intro a ha
      subst ha
      simp only [maxSatStep] at iha
      by_cases hs : sat v = true
      · rw [if_pos hs] at iha
        by_cases hl : vLtb a v = true
        · rw [if_pos hl] at iha
          have hmvf : vLtb m v = false := iha v rfl
          cases hma : vLtb m a with
          | false => rfl
          | true =>
            have := vLtb_trans m a v hma hl
            rw [this] at hmvf
            exact absurd hmvf (by simp)
        · rw [if_neg hl] at iha
          exact iha a rfl
      · rw [if_neg hs] at iha
        exact iha a rfl

theorem maxSat_ub (sat : Version → Bool) (l : List Version) (m : Version)
    (h : maxSat l sat = some m) :
    ∀ v ∈ l, sat v = true → vLtb m v = false :=
  (maxSat_foldl_ub sat l none m h).1

theorem maxSat_ne_none (sat : Version → Bool) :
    ∀ (l : List Version) (acc : Option Version) (v : Version), v ∈ l →
      sat v = true → List.foldl (maxSatStep sat) acc l ≠ none := by
  intro l
  induction l with
  | nil => intro acc v hv; cases hv
  | cons u us ih =>
    intro acc v hv hs
    rcases List.mem_cons.mp hv with h1 | h2
    · subst h1
      simp only [List.foldl]
      cases acc with
      | none =>
        have hstep : maxSatStep sat none v = some v := by
          simp only [maxSatStep]
          rw [if_pos hs]
        rw [hstep]
        obtain ⟨m', hm'⟩ := maxSat_foldl_some sat us v
        rw [hm']
        intro hc; cases hc
      | some m0 =>
        obtain ⟨m1, hm1⟩ := maxSatStep_some sat m0 v
        rw [hm1]
        obtain ⟨m', hm'⟩ := maxSat_foldl_some sat us m1
        rw [hm']
        intro hc; cases hc
    · simp only [List.foldl]
      exact ih (maxSatStep sat acc u) v h2 hs

/-- Model of `semver.coerce` applied to an already-valid version string: the numeric
triple with the prerelease tag dropped (source comment in Utils.ts:
`semver.coerce("^13.0.7-canary.3") => "13.0.7"`). -/
def coerceV (v : Version) : Version := ⟨v.major, v.minor, v.patch, []⟩

/-- Satisfaction of the range `">=0"` (which parses as `>=0.0.0`) under the
`includePrerelease` flag: a release version always satisfies it; a
prerelease satisfies it only when `includePrerelease` is set and it is not
a prerelease of `0.0.0` (which precedes `0.0.0` itself). -/
def satGeZero (includePre : Bool) (v : Version) : Bool :=
  if v.pre.isEmpty then true
  else includePre && !(v.major == 0 && v.minor == 0 && v.patch == 0)

/-- The upper bound of the caret range `^base` (`<(M+1).0.0-0`,
`<0.(m+1).0-0` or `<0.0.(p+1)-0` depending on the leftmost nonzero
component), expressed on parsed versions.  No version with the bound's
numeric triple can be strictly below its `-0` prerelease, so the bound
collapses to a triple comparison. -/
def caretUpperOk (base v : Version) : Bool :=
  if 0 < base.major then decide (v.major ≤ base.major)
  else if 0 < base.minor then v.major == 0 && decide (v.minor ≤ base.minor)
  else v.major == 0 && v.minor == 0 && decide (v.patch ≤ base.patch)

/-- Non-strict semver precedence. -/
def vLeb (a b : Version) : Bool := vLtb a b || a == b

/-- Satisfaction of the caret range `^base` under `includePrerelease`:
the version is at least `base`, within the caret upper bound, and — unless
`includePrerelease` is set — a prerelease candidate is only admitted when
`base` itself is a prerelease with the same numeric triple (semver's rule
that prerelease versions match only comparators carrying a prerelease on
the same triple). -/
def satCaret (base : Version) (includePre : Bool) (v : Version) : Bool :=
  vLeb base v && caretUpperOk base v &&
    (v.pre.isEmpty || includePre || (tripleEqb v base && !base.pre.isEmpty))

/-- The early-return block of `getPackageLatestVersion` for prerelease
baselines (NPM module lines 977-986): the greatest published
non-prerelease version in `^coerce(versionClean)`, kept only when it is
strictly greater than the baseline. -/
def graduationCandidate (packageVersions : List Version) (versionClean : Version) :
    Option Version :=
  if !versionClean.pre.isEmpty then
    match maxSat packageVersions (satCaret (coerceV versionClean) false) with
    | some versionNonPrerelease =>
      if vLtb versionClean versionNonPrerelease then some versionNonPrerelease
      else none
    | none => none
  else none

/-- Steps 8-10 of the resolution (NPM module lines 988-1000): take the
caret-range maximum when it exists and differs from the baseline,
otherwise fall back to the overall latest version. -/
def resolveWithinRange (versionLatest : Option Version) (versionClean : Version) :
    Option Version → Option Version
  | none => versionLatest
  | some versionSatisfying =>
    if versionSatisfying = versionClean then versionLatest
    else some versionSatisfying

/-- The protected branch of the resolution: the graduation early return of
lines 977-986 when it produced a candidate, otherwise steps 8-10. -/
def resolveProtected (versionLatest : Option Version) (versionClean : Version)
    (versionSatisfying : Option Version) : Option Version → Option Version
  | some versionNonPrerelease => some versionNonPrerelease
  | none => resolveWithinRange versionLatest versionClean versionSatisfying

/-- Model of `getPackageLatestVersion` (NPM module lines 957-1001), with the
`hasMajorUpdateProtection()` setting passed as an argument, the published
version list already fetched, and the declared range already reduced to
its cleared baseline `versionClean`.  Returns the suggested version, or
`none` when nothing satisfies `>=0`. -/
def getPackageLatestVersion (majorUpdateProtection : Bool)
    (packageVersions : List Version) (versionClean : Version) : Option Version :=
  let isPrerelease := !versionClean.pre.isEmpty
  let versionLatest := maxSat packageVersions (satGeZero isPrerelease)
  if !majorUpdateProtection then versionLatest
  else
    resolveProtected versionLatest versionClean
      (maxSat packageVersions (satCaret versionClean isPrerelease))
      (graduationCandidate packageVersions versionClean)

theorem isEmpty_true_iff (l : List PreId) : l.isEmpty = true ↔ l = [] := by
  cases l <;> simp

theorem satGeZero_false_pre (v : Version) (h : satGeZero false v = true) :
    v.pre = [] := by
  unfold satGeZero at h
  by_cases hp : v.pre.isEmpty = true
  · exact (isEmpty_true_iff v.pre).mp hp
  · rw [if_neg hp] at h
    simp at h

theorem satCaret_release_pre (b v : Version) (hb : b.pre = [])
    (h : satCaret b false v = true) : v.pre = [] := by
  simp only [satCaret, Bool.and_eq_true, Bool.or_eq_true] at h
  obtain ⟨_, h3⟩ := h
  rcases h3 with (h3 | h3) | h3
  · exact (isEmpty_true_iff v.pre).mp h3
  · cases h3
  · rw [hb] at h3
    simp at h3

theorem graduationCandidate_of_release (packageVersions : List Version)
    (versionClean : Version) (hemp : versionClean.pre.isEmpty = true) :
    graduationCandidate packageVersions versionClean = none := by
  unfold graduationCandidate
  rw [hemp]
  rfl

theorem satCaret_of_graduation (b r : Version) (hp : b.pre.isEmpty = false)
    (hs : satCaret (coerceV b) false r = true) (hgt : vLtb b r = true) :
    satCaret b (!b.pre.isEmpty) r = true := by
  simp only [satCaret, Bool.and_eq_true, Bool.or_eq_true] at hs ⊢
  obtain ⟨⟨_, hup⟩, _⟩ := hs
  refine ⟨⟨?_, ?_⟩, ?_⟩
  · simp [vLeb, hgt]
  · exact hup
  · left
    right
    rw [hp]
    rfl

/-- Claim C5: with major-update protection disabled, the suggestion is
exactly `maxSatisfying(versions, ">=0", includePrerelease := baseline is a
prerelease)`, and that value is the true maximum of the published set among
the candidates admitted by the prerelease-inclusion rule: it belongs to the
set, satisfies the rule, is not below any admitted candidate, and is
present whenever an admitted candidate exists. -/
theorem C5_protection_disabled_latest (packageVersions : List Version)
    (versionClean : Version) :
    getPackageLatestVersion false packageVersions versionClean =
      maxSat packageVersions (satGeZero (!versionClean.pre.isEmpty)) ∧
    (∀ m, maxSat packageVersions (satGeZero (!versionClean.pre.isEmpty)) = some m →
      m ∈ packageVersions ∧ satGeZero (!versionClean.pre.isEmpty) m = true ∧
      ∀ v ∈ packageVersions, satGeZero (!versionClean.pre.isEmpty) v = true →
        vLtb m v = false) ∧
    (∀ v ∈ packageVersions, satGeZero (!versionClean.pre.isEmpty) v = true →
      maxSat packageVersions (satGeZero (!versionClean.pre.isEmpty)) ≠ none) := by
  refine ⟨rfl, ?_, ?_⟩
  · intro m hm
    obtain ⟨hmem, hsat⟩ := maxSat_mem_sat _ packageVersions m hm
    exact ⟨hmem, hsat, maxSat_ub _ packageVersions m hm⟩
  · intro v hv hsat
    exact maxSat_ne_none _ packageVersions none v hv hsat

/-- Witness for C5 on the section 8 fallback scenario: published
versions 1.0.0, 1.0.1, 2.0.0 and baseline 1.0.1, protection disabled. -/
theorem C5_witness :
    getPackageLatestVersion false [⟨1, 0, 0, []⟩, ⟨1, 0, 1, []⟩, ⟨2, 0, 0, []⟩]
      ⟨1, 0, 1, []⟩ = some ⟨2, 0, 0, []⟩ ∧
    (⟨2, 0, 0, []⟩ : Version) ∈
      [⟨1, 0, 0, []⟩, ⟨1, 0, 1, []⟩, (⟨2, 0, 0, []⟩ : Version)] := by
  have h := C5_protection_disabled_latest
    [⟨1, 0, 0, []⟩, ⟨1, 0, 1, []⟩, ⟨2, 0, 0, []⟩] ⟨1, 0, 1, []⟩
  refine ⟨h.1.trans (by decide), ?_⟩
  have h2 := h.2.1 ⟨2, 0, 0, []⟩ (by decide)
  exact h2.1

/-- Claim C3: when the cleared baseline of the declared range is not a
prerelease, the resolution algorithm never suggests a prerelease version,
whatever the protection setting and the published set. -/
theorem C3_no_prerelease_suggestion (majorUpdateProtection : Bool)
    (packageVersions : List Version) (versionClean : Version)
    (hbase : versionClean.pre = []) (v : Version)
    (hv : getPackageLatestVersion majorUpdateProtection packageVersions versionClean =
      some v) :
    v.pre = [] := by
  have hemp : versionClean.pre.isEmpty = true := by rw [hbase]; rfl
  cases majorUpdateProtection with
  | false =>
    unfold getPackageLatestVersion at hv
    rw [hemp] at hv
    simp only [Bool.not_true, Bool.not_false, if_true] at hv
    obtain ⟨_, hsat⟩ := maxSat_mem_sat _ packageVersions v hv
    exact satGeZero_false_pre v hsat
  | true =>
    unfold getPackageLatestVersion at hv
    rw [hemp, graduationCandidate_of_release packageVersions versionClean hemp] at hv
    simp only [Bool.not_true, Bool.not_false] at hv
    rw [if_neg Bool.false_ne_true] at hv
    simp only [resolveProtected] at hv
    cases hg : maxSat packageVersions (satCaret versionClean false) with
    | none =>
      rw [hg] at hv
      simp only [resolveWithinRange] at hv
      obtain ⟨_, hsat⟩ := maxSat_mem_sat _ packageVersions v hv
      exact satGeZero_false_pre v hsat
    | some s =>
      rw [hg] at hv
      simp only [resolveWithinRange] at hv
      by_cases he : s = versionClean
      · rw [if_pos he] at hv
        obtain ⟨_, hsat⟩ := maxSat_mem_sat _ packageVersions v hv
        exact satGeZero_false_pre v hsat
      · rw [if_neg he] at hv
        have : s = v := by injection hv
        subst this
        obtain ⟨_, hsat⟩ := maxSat_mem_sat _ packageVersions s hg
        exact satCaret_release_pre versionClean s hbase hsat

/-- Witness for C3: baseline 1.0.0 over published versions 1.0.0, 1.0.1
and prerelease 1.1.0-alpha; the suggestion 1.0.1 carries no prerelease. -/
theorem C3_witness :
    getPackageLatestVersion true
      [⟨1, 0, 0, []⟩, ⟨1, 0, 1, []⟩, ⟨1, 1, 0, [PreId.str ['a', 'l', 'p', 'h', 'a']]⟩]
      ⟨1, 0, 0, []⟩ = some ⟨1, 0, 1, []⟩ ∧
    (⟨1, 0, 1, []⟩ : Version).pre = [] := by
  refine ⟨by decide, ?_⟩
  exact C3_no_prerelease_suggestion true
    [⟨1, 0, 0, []⟩, ⟨1, 0, 1, []⟩, ⟨1, 1, 0, [PreId.str ['a', 'l', 'p', 'h', 'a']]⟩]
    ⟨1, 0, 0, []⟩ rfl ⟨1, 0, 1, []⟩ (by decide)

/-- Claim C4: for a prerelease baseline under protection, whenever the
greatest published non-prerelease version in the caret range of the
baseline's release counterpart exists and exceeds the baseline, it is
suggested (graduating out of the prerelease line wins over newer
prereleases). -/
theorem C4_graduation_preferred (packageVersions : List Version)
    (versionClean versionNonPrerelease : Version)
    (hpre : versionClean.pre ≠ [])
    (hr : maxSat packageVersions (satCaret (coerceV versionClean) false) =
      some versionNonPrerelease)
    (hgt : vLtb versionClean versionNonPrerelease = true) :
    getPackageLatestVersion true packageVersions versionClean =
      some versionNonPrerelease := by
  have hne : versionClean.pre.isEmpty = false := by
    cases h : versionClean.pre with
    | nil => exact absurd h hpre
    | cons a as => rfl
  unfold getPackageLatestVersion graduationCandidate
  rw [hne, hr]
  simp [hgt, resolveProtected]

/-- Witness for C4 on the section 8 graduation scenario: range
`^1.0.1-alpha` over published 1.0.0, 1.0.1-alpha, 1.0.1 suggests 1.0.1. -/
theorem C4_witness :
    getPackageLatestVersion true
      [⟨1, 0, 0, []⟩, ⟨1, 0, 1, [PreId.str ['a', 'l', 'p', 'h', 'a']]⟩, ⟨1, 0, 1, []⟩]
      ⟨1, 0, 1, [PreId.str ['a', 'l', 'p', 'h', 'a']]⟩ = some ⟨1, 0, 1, []⟩ :=
  C4_graduation_preferred
    [⟨1, 0, 0, []⟩, ⟨1, 0, 1, [PreId.str ['a', 'l', 'p', 'h', 'a']]⟩, ⟨1, 0, 1, []⟩]
    ⟨1, 0, 1, [PreId.str ['a', 'l', 'p', 'h', 'a']]⟩ ⟨1, 0, 1, []⟩
    (by decide) (by decide) (by decide)

/-- Claim C2: under protection, when the caret-range maximum is absent or
is exactly the baseline, the suggestion falls back to the overall latest
version (the `>=0` maximum with the prerelease-inclusion rule). -/
theorem C2_ceiling_falls_back_to_latest (packageVersions : List Version)
    (versionClean : Version)
    (h : maxSat packageVersions (satCaret versionClean (!versionClean.pre.isEmpty)) =
        none ∨
      maxSat packageVersions (satCaret versionClean (!versionClean.pre.isEmpty)) =
        some versionClean) :
    getPackageLatestVersion true packageVersions versionClean =
      maxSat packageVersions (satGeZero (!versionClean.pre.isEmpty)) := by
  have hgrad : graduationCandidate packageVersions versionClean = none := by
    cases hp : versionClean.pre.isEmpty with
    | true => exact graduationCandidate_of_release packageVersions versionClean hp
    | false =>
      unfold graduationCandidate
      rw [hp]
      cases hg : maxSat packageVersions (satCaret (coerceV versionClean) false) with
      | none => rfl
      | some r =>
        cases hgt : vLtb versionClean r with
        | false => simp [hgt]
        | true =>
          exfalso
          obtain ⟨hmem, hsat⟩ := maxSat_mem_sat _ packageVersions r hg
          have hsat2 := satCaret_of_graduation versionClean r hp hsat hgt
          rcases h with h | h
          · exact maxSat_ne_none _ packageVersions none r hmem hsat2 h
          · have hub := maxSat_ub _ packageVersions versionClean h r hmem hsat2
            rw [hgt] at hub
            cases hub
  unfold getPackageLatestVersion
  simp only [Bool.not_true]
  rw [if_neg Bool.false_ne_true, hgrad]
  simp only [resolveProtected]
  rcases h with h | h
  · rw [h]
    simp only [resolveWithinRange]
  · rw [h]
    simp [resolveWithinRange]

/-- Witness for C2 on the section 8 ceiling scenario: range `^1.0.1` over
published 1.0.0, 1.0.1, 2.0.0; the caret maximum is the baseline itself
and the suggestion falls back to 2.0.0. -/
theorem C2_witness :
    maxSat [⟨1, 0, 0, []⟩, ⟨1, 0, 1, []⟩, ⟨2, 0, 0, []⟩]
      (satCaret ⟨1, 0, 1, []⟩ (!(⟨1, 0, 1, []⟩ : Version).pre.isEmpty)) =
      some ⟨1, 0, 1, []⟩ ∧
    getPackageLatestVersion true [⟨1, 0, 0, []⟩, ⟨1, 0, 1, []⟩, ⟨2, 0, 0, []⟩]
      ⟨1, 0, 1, []⟩ = some ⟨2, 0, 0, []⟩ := by
  refine ⟨by decide, ?_⟩
  have h := C2_ceiling_falls_back_to_latest
    [⟨1, 0, 0, []⟩, ⟨1, 0, 1, []⟩, ⟨2, 0, 0, []⟩] ⟨1, 0, 1, []⟩ (Or.inr (by decide))
  exact h.trans (by decide)

/-- Model of `versionClear` from `src/Utils.ts` line 104: strip the leading run of
non-digit characters (`replace(/^\D+/, "")`) then trailing whitespace
(`trimEnd`, modelled over the whitespace characters Lean's
`Char.isWhitespace` recognises), on the version string's character list. -/
def versionClear (version : List Char) : List Char :=
  ((version.dropWhile (fun c => !c.isDigit)).reverse.dropWhile
    (fun c => c.isWhitespace)).reverse

theorem dropWhile_append_of_all {α : Type} (p : α → Bool) :
    ∀ (l1 l2 : List α), (∀ c ∈ l1, p c = true) →
      List.dropWhile p (l1 ++ l2) = List.dropWhile p l2 := by
  intro l1
  induction l1 with
  | nil => intro l2 _; rfl
  | cons a as ih =>
    intro l2 hall
    have ha : p a = true := hall a (List.mem_cons_self _ _)
    simp only [List.cons_append, List.dropWhile_cons, ha, if_true]
    exact ih l2 (fun c hc => hall c (List.mem_cons_of_mem _ hc))

/-- Claim C9: baseline extraction removes exactly the leading non-digit
operator characters and the trailing whitespace of a declared range, and
returns the remaining bare version — prerelease tag included — verbatim. -/
theorem C9_versionClear_baseline (p r w : List Char)
    (hp : ∀ c ∈ p, c.isDigit = false)
    (hr : ∃ c cs, r = c :: cs ∧ c.isDigit = true)
    (hrw : r.reverse.dropWhile (fun c => c.isWhitespace) = r.reverse)
    (hw : ∀ c ∈ w, c.isWhitespace = true) :
    versionClear (p ++ (r ++ w)) = r := by
  obtain ⟨c, cs, hr1, hr2⟩ := hr
  subst hr1
  unfold versionClear
  rw [dropWhile_append_of_all (fun c => !c.isDigit) p (c :: cs ++ w)
    (by intro x hx; show (!x.isDigit) = true; rw [hp x hx]; rfl)]
  have h2 : List.dropWhile (fun c => !c.isDigit) (c :: (cs ++ w)) = c :: (cs ++ w) := by
    rw [List.dropWhile_cons]
    rw [hr2]
    rfl
  rw [List.cons_append, h2, ← List.cons_append]
  rw [List.reverse_append]
  rw [dropWhile_append_of_all (fun c => c.isWhitespace) w.reverse (c :: cs).reverse
    (by intro x hx; exact hw x (List.mem_reverse.mp hx))]
  rw [hrw]
  exact List.reverse_reverse _

/-- Witness for C9 at the source's own example: `"^13.0.7-canary.3"`
clears to `"13.0.7-canary.3"`, keeping the `-canary.3` tag. -/
theorem C9_witness :
    versionClear
      ('^' :: ['1', '3', '.', '0', '.', '7', '-', 'c', 'a', 'n', 'a', 'r', 'y', '.', '3']) =
      ['1', '3', '.', '0', '.', '7', '-', 'c', 'a', 'n', 'a', 'r', 'y', '.', '3'] := by
  have h := C9_versionClear_baseline ['^']
    ['1', '3', '.', '0', '.', '7', '-', 'c', 'a', 'n', 'a', 'r', 'y', '.', '3'] []
    (by decide)
    ⟨'1', ['3', '.', '0', '.', '7', '-', 'c', 'a', 'n', 'a', 'r', 'y', '.', '3'], rfl, by decide⟩
    (by decide) (by decide)
  simpa using h

/-- Modelled from the spec: the `Cache` class (imported as `./Cache` by the
NPM module) is not among the given sources, only its callers are.  Per the
spec's data model and TTL-cache contract, an entry pairs a value with its
creation timestamp, and `isValid(ttl)` holds iff `now - createdAt < ttl`.
The value is the identity of the promise the entry holds. -/
structure Cache (α : Type) where
  value : α
  createdAt : Nat
  deriving DecidableEq

/-- Modelled from the spec: lazy validity check of a cache entry. -/
def Cache.isValid {α : Type} (c : Cache α) (lifetime now : Nat) : Bool :=
  decide (now - c.createdAt < lifetime)

/-- How a promise eventually settles. -/
inductive PromiseSettle (α : Type) where
  | resolved (v : α)
  | rejected
  deriving DecidableEq

/-- What returns from the synchronous part of a cached fetch call. -/
structure CallResult where
  promise : Nat
  issuedExec : Bool
  deriving DecidableEq

/-- The synchronous part of `getPackageVersions` (NPM module lines
923-953) for one package name: on a valid cache entry, return the cached
promise without running `npm view`; otherwise start a fresh `exec`
(promise identity `pid`), store it in the cache stamped `now`, and return
it.  The state is the cache slot for that name. -/
def getPackageVersionsCall :
    Option (Cache Nat) → Nat → Nat → Nat → CallResult × Option (Cache Nat)
  | some c, lifetime, now, pid =>
    if c.isValid lifetime now then (⟨c.value, false⟩, some c)
    else (⟨pid, true⟩, some ⟨pid, now⟩)
  | none, _, now, pid => (⟨pid, true⟩, some ⟨pid, now⟩)

/-- Outcome of the `npm view --json <name> versions` child process. -/
inductive NpmViewOutcome (α : Type) where
  | ok (payload : α)
  | execError
  | parseError
  deriving DecidableEq

/-- The `exec` callback of `getPackageVersions` (NPM module lines
934-948): parseable success resolves the promise and leaves the cache
alone; a non-zero exit / transport error, or an unparsable JSON payload,
deletes the cache entry for the name and rejects the promise. -/
def getPackageVersionsExecCallback (α : Type) (cacheEntry : Option (Cache Nat)) :
    NpmViewOutcome α → PromiseSettle α × Option (Cache Nat)
  | .ok payload => (.resolved payload, cacheEntry)
  | .execError => (.rejected, none)
  | .parseError => (.rejected, none)

/-- Outcome of the `npm ls --json --depth=0` child process. -/
inductive NpmLsOutcome (β : Type) where
  | okDeps (deps : β)
  | okNoDeps
  | noStdout
  | parseError
  deriving DecidableEq

/-- The synchronous part of `getPackagesInstalled` (NPM module lines
1018-1058): same cache discipline as `getPackageVersionsCall`, with the
lifetime fixed to sixty seconds. -/
def getPackagesInstalledCall :
    Option (Cache Nat) → Nat → Nat → CallResult × Option (Cache Nat)
  | some c, now, pid =>
    if c.isValid (60 * 1000) now then (⟨c.value, false⟩, some c)
    else (⟨pid, true⟩, some ⟨pid, now⟩)
  | none, now, pid => (⟨pid, true⟩, some ⟨pid, now⟩)

/-- The `exec` callback of `getPackagesInstalled` (NPM module lines
1029-1052): a parseable result with a `dependencies` key resolves to the
name-to-version mapping; every failure (no stdout, unparsable JSON, JSON
without `dependencies`) resolves to `undefined` — the promise is never
rejected and the cache entry is never removed. -/
def getPackagesInstalledExecCallback (β : Type) (cacheEntry : Option (Cache Nat)) :
    NpmLsOutcome β → PromiseSettle (Option β) × Option (Cache Nat)
  | .okDeps deps => (.resolved (some deps), cacheEntry)
  | .okNoDeps => (.resolved none, cacheEntry)
  | .noStdout => (.resolved none, cacheEntry)
  | .parseError => (.resolved none, cacheEntry)

/-- Counterexample to claim C1 as stated: on the installed-versions fetch
path, an unparsable `npm ls` payload neither rejects the returned future
nor removes the cache entry — the future resolves to `undefined` and the
entry survives. -/
theorem C1_counterexample_installed_failure :
    (getPackagesInstalledExecCallback Nat (some ⟨0, 0⟩) NpmLsOutcome.parseError).1 ≠
      PromiseSettle.rejected ∧
    (getPackagesInstalledExecCallback Nat (some ⟨0, 0⟩) NpmLsOutcome.parseError).2 =
      some ⟨0, 0⟩ := by
  refine ⟨?_, rfl⟩
  intro h
  cases h

/-- Claim C1 as amended: on the published-versions fetch path every
failure (non-zero exit, transport error, unparsable JSON) removes the
cache entry for the name and rejects the future, and a subsequent call
with the entry gone issues a fresh `npm view` immediately; the
installed-versions path instead resolves to `undefined` on failure and
keeps its cache entry. -/
theorem C1_published_failure_discards_cache (α β : Type)
    (st : Option (Cache Nat)) :
    getPackageVersionsExecCallback α st NpmViewOutcome.execError =
      (PromiseSettle.rejected, none) ∧
    getPackageVersionsExecCallback α st NpmViewOutcome.parseError =
      (PromiseSettle.rejected, none) ∧
    (∀ lifetime now pid,
      (getPackageVersionsCall none lifetime now pid).1.issuedExec = true) ∧
    (∀ out : NpmLsOutcome β, (∀ d, out ≠ NpmLsOutcome.okDeps d) →
      getPackagesInstalledExecCallback β st out = (PromiseSettle.resolved none, st)) := by
  refine ⟨rfl, rfl, fun _ _ _ => rfl, ?_⟩
  intro out hout
  cases out with
  | okDeps d => exact absurd rfl (hout d)
  | okNoDeps => rfl
  | noStdout => rfl
  | parseError => rfl

/-- Witness for the amended C1 at concrete inputs: a transport error on
the published path clears the entry and rejects; a fresh call then issues
`npm view`; an `npm ls` failure resolves to `undefined` keeping the entry. -/
theorem C1_witness :
    getPackageVersionsExecCallback Nat (some ⟨3, 5⟩) NpmViewOutcome.execError =
      (PromiseSettle.rejected, none) ∧
    (getPackageVersionsCall none 1000 7 9).1.issuedExec = true ∧
    getPackagesInstalledExecCallback Nat (some ⟨3, 5⟩) NpmLsOutcome.noStdout =
      (PromiseSettle.resolved none, some ⟨3, 5⟩) := by
  have h := C1_published_failure_discards_cache Nat Nat (some ⟨3, 5⟩)
  exact ⟨h.1, h.2.2.1 1000 7 9, h.2.2.2 NpmLsOutcome.noStdout (by intro d hc; cases hc)⟩

theorem getPackageVersionsCall_post (st : Option (Cache Nat))
    (lifetime now pid : Nat) :
    ∃ c : Cache Nat, (getPackageVersionsCall st lifetime now pid).2 = some c ∧
      c.value = (getPackageVersionsCall st lifetime now pid).1.promise := by
  cases st with
  | none => exact ⟨⟨pid, now⟩, rfl, rfl⟩
  | some c =>
    by_cases hv : c.isValid lifetime now = true
    · refine ⟨c, ?_, ?_⟩ <;> simp [getPackageVersionsCall, hv]
    · refine ⟨⟨pid, now⟩, ?_, ?_⟩ <;> simp [getPackageVersionsCall, hv]

/-- Claim C6: a second published-versions fetch made while the entry left
by a first fetch is still within its TTL returns the very same promise,
issues no `npm view` of its own, leaves the cache untouched, and the two
calls together run at most one external query. -/
theorem C6_fetch_dedup_within_ttl (st0 : Option (Cache Nat))
    (lifetime t0 t1 pid0 pid1 : Nat)
    (hvalid : ∀ c, (getPackageVersionsCall st0 lifetime t0 pid0).2 = some c →
      c.isValid lifetime t1 = true) :
    ((getPackageVersionsCall (getPackageVersionsCall st0 lifetime t0 pid0).2
        lifetime t1 pid1).1.promise =
      (getPackageVersionsCall st0 lifetime t0 pid0).1.promise) ∧
    ((getPackageVersionsCall (getPackageVersionsCall st0 lifetime t0 pid0).2
        lifetime t1 pid1).1.issuedExec = false) ∧
    ((getPackageVersionsCall (getPackageVersionsCall st0 lifetime t0 pid0).2
        lifetime t1 pid1).2 =
      (getPackageVersionsCall st0 lifetime t0 pid0).2) ∧
    ((if (getPackageVersionsCall st0 lifetime t0 pid0).1.issuedExec then 1 else 0) +
      (if (getPackageVersionsCall (getPackageVersionsCall st0 lifetime t0 pid0).2
          lifetime t1 pid1).1.issuedExec then 1 else 0) ≤ 1) := by
  obtain ⟨c, hc, hcv⟩ := getPackageVersionsCall_post st0 lifetime t0 pid0
  have hval := hvalid c hc
  have h2 : getPackageVersionsCall (some c) lifetime t1 pid1 = (⟨c.value, false⟩, some c) := by
    simp [getPackageVersionsCall, hval]
  rw [hc, h2]
  refine ⟨hcv, rfl, rfl, ?_⟩
  cases hb : (getPackageVersionsCall st0 lifetime t0 pid0).1.issuedExec <;> simp [hb]

/-- Witness for C6: from an empty cache slot, a call at time 0 followed by
a call at time 500 under a 1000ms TTL share promise 7 and issue exactly
one `npm view`. -/
theorem C6_witness :
    (getPackageVersionsCall (getPackageVersionsCall none 1000 0 7).2 1000 500 8).1.promise =
      (getPackageVersionsCall none 1000 0 7).1.promise ∧
    (getPackageVersionsCall (getPackageVersionsCall none 1000 0 7).2 1000 500 8).1.issuedExec =
      false ∧
    (getPackageVersionsCall none 1000 0 7).1.promise = 7 := by
  have h := C6_fetch_dedup_within_ttl none 1000 0 500 7 8 (by
    intro c hc
    have : (some ⟨7, 0⟩ : Option (Cache Nat)) = some c := by
      rw [← hc]
      rfl
    have hc' : c = ⟨7, 0⟩ := by
      injection this with h2
      exact h2.symm
    rw [hc']
    decide)
  exact ⟨h.1, h.2.1, rfl⟩

/-- The closure state of `lazyCallback` (`src/Utils.ts` lines 5-55):
whether a callback invocation is in flight, and the single pending
argument slot. -/
structure LazyState (A : Type) where
  isRunning : Bool
  argsNext : Option A
  deriving DecidableEq

/-- Events driving the `lazyCallback` activator: a call of the returned
activator with some arguments, or the completion of the in-flight
invocation (the callback finished and the `delay` timer fired, running the
release block of lines 39-47). -/
inductive LazyEvent (A : Type) where
  | activate (args : A)
  | complete
  deriving DecidableEq

/-- One transition of the activator, returning the new state and the list
of callback invocations started by the event.  `activate` while idle
starts the callback at once (lines 21-35); `activate` while running only
overwrites the pending slot (lines 48-51); `complete` releases the flag
and, when the slot is filled, immediately re-activates with the stored
arguments and clears the slot (lines 39-47). -/
def lazyStep {A : Type} (st : LazyState A) : LazyEvent A → LazyState A × List A
  | .activate a =>
    if st.isRunning then (⟨true, some a⟩, [])
    else (⟨true, st.argsNext⟩, [a])
  | .complete =>
    if st.isRunning then
      match st.argsNext with
      | some a => (⟨true, none⟩, [a])
      | none => (⟨false, none⟩, [])
    else (st, [])

/-- Number of in-flight invocations ended by an event (a completion of a
running unit ends exactly the one unit). -/
def lazyEnds {A : Type} (st : LazyState A) : LazyEvent A → Nat
  | .complete => if st.isRunning then 1 else 0
  | .activate _ => 0

/-- Run a sequence of events, accumulating the total number of callback
invocations started and ended. -/
def lazyRun {A : Type} (st : LazyState A) :
    List (LazyEvent A) → LazyState A × Nat × Nat
  | [] => (st, 0, 0)
  | e :: es =>
    let stepped := lazyStep st e
    let rest := lazyRun stepped.1 es
    (rest.1, stepped.2.length + rest.2.1, lazyEnds st e + rest.2.2)

theorem lazyRun_balance {A : Type} :
    ∀ (evs : List (LazyEvent A)) (st : LazyState A),
      (lazyRun st evs).2.1 + st.isRunning.toNat =
        (lazyRun st evs).2.2 + (lazyRun st evs).1.isRunning.toNat := by
  intro evs
  induction evs with
  | nil => intro st; simp [lazyRun]
  | cons e es ih =>
    intro st
    cases e with
    | activate a =>
      cases hr : st.isRunning with
      | true =>
        have hstep : lazyStep st (LazyEvent.activate a) = (⟨true, some a⟩, []) := by
          simp [lazyStep, hr]
        have hih := ih (⟨true, some a⟩ : LazyState A)
        simp only [lazyRun, hstep, lazyEnds, hr] at hih ⊢
        simp at hih ⊢
        omega
      | false =>
        have hstep : lazyStep st (LazyEvent.activate a) = (⟨true, st.argsNext⟩, [a]) := by
          simp [lazyStep, hr]
        have hih := ih (⟨true, st.argsNext⟩ : LazyState A)
        simp only [lazyRun, hstep, lazyEnds, hr] at hih ⊢
        simp at hih ⊢
        omega
    | complete =>
      cases hr : st.isRunning with
      | true =>
        cases hn : st.argsNext with
        | some a =>
          have hstep : lazyStep st LazyEvent.complete = (⟨true, none⟩, [a]) := by
            simp [lazyStep, hr, hn]
          have hih := ih (⟨true, none⟩ : LazyState A)
          simp only [lazyRun, hstep, lazyEnds, hr] at hih ⊢
          simp at hih ⊢
          omega
        | none =>
          have hstep : lazyStep st LazyEvent.complete = (⟨false, none⟩, []) := by
            simp [lazyStep, hr, hn]
          have hih := ih (⟨false, none⟩ : LazyState A)
          simp only [lazyRun, hstep, lazyEnds, hr] at hih ⊢
          simp at hih ⊢
          omega
      | false =>
        have hstep : lazyStep st LazyEvent.complete = (st, []) := by
          simp [lazyStep, hr]
        have hih := ih st
        simp only [lazyRun, hstep, lazyEnds, hr] at hih ⊢
        simp [hr] at hih ⊢
        omega

/-- Claim C7: the debounced trigger keeps at most one invocation in
flight; a call arriving while one is in flight only overwrites the single
pending slot (keeping the newest arguments, starting nothing); and on
completion the pending call, if any, runs exactly once with the slot
cleared — otherwise the trigger goes idle.  The final conjunct bounds
every run from the idle state: the number of invocations started never
exceeds the number ended plus one. -/
theorem C7_lazyCallback_coalesces (A : Type) :
    (∀ (st : LazyState A) (a : A), st.isRunning = true →
      lazyStep st (LazyEvent.activate a) = (⟨true, some a⟩, [])) ∧
    (∀ (st : LazyState A) (a : A), st.isRunning = true → st.argsNext = some a →
      lazyStep st LazyEvent.complete = (⟨true, none⟩, [a])) ∧
    (∀ st : LazyState A, st.isRunning = true → st.argsNext = none →
      lazyStep st LazyEvent.complete = (⟨false, none⟩, [])) ∧
    (∀ evs : List (LazyEvent A),
      (lazyRun (⟨false, none⟩ : LazyState A) evs).2.1 ≤
        (lazyRun (⟨false, none⟩ : LazyState A) evs).2.2 + 1) := by
  refine ⟨?_, ?_, ?_, ?_⟩
  · intro st a hr
    simp [lazyStep, hr]
  · intro st a hr hn
    simp [lazyStep, hr, hn]
  · intro st hr hn
    simp [lazyStep, hr, hn]
  · intro evs
    have h := lazyRun_balance evs (⟨false, none⟩ : LazyState A)
    simp at h
    have hle : (lazyRun (⟨false, none⟩ : LazyState A) evs).1.isRunning.toNat ≤ 1 := by
      cases hfin : (lazyRun (⟨false, none⟩ : LazyState A) evs).1.isRunning <;>
        simp [hfin]
    omega

/-- Witness for C7: with an invocation running and argument 1 pending, a
new activation with argument 2 overwrites the slot without starting
anything, and the following completion runs argument 2 exactly once. -/
theorem C7_witness :
    lazyStep (⟨true, some 1⟩ : LazyState Nat) (LazyEvent.activate 2) =
      (⟨true, some 2⟩, []) ∧
    lazyStep (⟨true, some 2⟩ : LazyState Nat) LazyEvent.complete =
      (⟨true, none⟩, [2]) ∧
    lazyRun (⟨false, none⟩ : LazyState Nat)
      [LazyEvent.activate 1, LazyEvent.activate 2, LazyEvent.complete] =
      (⟨true, none⟩, 2, 1) := by
  have h := C7_lazyCallback_coalesces Nat
  exact ⟨h.1 ⟨true, some 1⟩ 2 rfl, h.2.1 ⟨true, some 2⟩ 2 rfl rfl, by decide⟩

/-- Events at the `promiseLimit` gate (`src/Utils.ts` lines 75-97): a
caller's `waitUntil` poll that is allowed through (incrementing
`inProgress` and starting its function), and the decrement after the
awaited function returns. -/
inductive GateEvent where
  | acquire
  | release
  deriving DecidableEq

/-- The `waitUntil` condition of line 87: a waiting caller proceeds iff
`inProgress < concurrency`. -/
def waitUntilCondition (concurrency n : Nat) : Bool :=
  decide (n < concurrency)

/-- Whether a caller submitting work through `promiseLimit` may proceed at
once: with `concurrency == 0` the returned wrapper is `func()` with no
gate at all (lines 77-81); otherwise the caller is held by `waitUntil`
until `inProgress < concurrency`. -/
def promiseLimitMayProceed (concurrency n : Nat) : Bool :=
  if concurrency = 0 then true else waitUntilCondition concurrency n

/-- One transition of the `inProgress` counter.  With `concurrency == 0`
there is no counter (the ungated wrapper is returned); otherwise an
allowed `acquire` increments it, a blocked one leaves the caller polling,
and `release` decrements after the function completes. -/
def promiseLimitStep (concurrency n : Nat) : GateEvent → Nat
  | .acquire =>
    if concurrency = 0 then n
    else if n < concurrency then n + 1 else n
  | .release => if concurrency = 0 then n else n - 1

/-- Run the gate from an idle counter over a sequence of events. -/
def promiseLimitRun (concurrency : Nat) (evs : List GateEvent) : Nat :=
  evs.foldl (promiseLimitStep concurrency) 0

theorem promiseLimitRun_invariant (concurrency : Nat) :
    ∀ (evs : List GateEvent) (n : Nat), n ≤ concurrency →
      List.foldl (promiseLimitStep concurrency) n evs ≤ concurrency := by
  intro evs
  induction evs with
  | nil => intro n hn; exact hn
  | cons e es ih =>
    intro n hn
    simp only [List.foldl]
    apply ih
    cases e with
    | acquire =>
      simp only [promiseLimitStep]
      by_cases h0 : concurrency = 0
      · rw [if_pos h0]; exact hn
      · rw [if_neg h0]
        by_cases hlt : n < concurrency
        · rw [if_pos hlt]; omega
        · rw [if_neg hlt]; exact hn
    | release =>
      simp only [promiseLimitStep]
      by_cases h0 : concurrency = 0
      · rw [if_pos h0]; exact hn
      · rw [if_neg h0]; omega

/-- Claim C8: with a zero limit the gate is a no-op (every caller proceeds
at once and no counter is kept); with a positive limit a waiting caller
proceeds exactly when fewer than `concurrency` operations are in flight,
the counter never exceeds the limit at any point of any run, and an
`acquire` attempted at a full gate changes nothing.  No fairness among
waiters is claimed (none exists in the source's polling loop). -/
theorem C8_promiseLimit_bound (concurrency : Nat) :
    (concurrency = 0 →
      (∀ n, promiseLimitMayProceed concurrency n = true) ∧
      (∀ n e, promiseLimitStep concurrency n e = n)) ∧
    (0 < concurrency → ∀ n,
      (promiseLimitMayProceed concurrency n = true ↔ n < concurrency)) ∧
    (0 < concurrency → ∀ evs, promiseLimitRun concurrency evs ≤ concurrency) ∧
    (0 < concurrency → ∀ n, concurrency ≤ n →
      promiseLimitStep concurrency n GateEvent.acquire = n) := by
  refine ⟨?_, ?_, ?_, ?_⟩
  · intro h0
    subst h0
    refine ⟨fun n => rfl, fun n e => ?_⟩
    cases e <;> rfl
  · intro hpos n
    have h0 : concurrency ≠ 0 := by omega
    simp [promiseLimitMayProceed, waitUntilCondition, h0]
  · intro _ evs
    exact promiseLimitRun_invariant concurrency evs 0 (by omega)
  · intro hpos n hge
    have h0 : concurrency ≠ 0 := by omega
    simp only [promiseLimitStep]
    rw [if_neg h0, if_neg (by omega)]

/-- Witness for C8 at limit 2: three acquires, a release and an acquire
never push the counter past 2, and the wait condition at a full gate is
false while one slot short of full it is true. -/
theorem C8_witness :
    promiseLimitRun 2
      [GateEvent.acquire, GateEvent.acquire, GateEvent.acquire,
        GateEvent.release, GateEvent.acquire] ≤ 2 ∧
    (promiseLimitMayProceed 2 2 = true ↔ 2 < 2) ∧
    (promiseLimitMayProceed 2 1 = true ↔ 1 < 2) := by
  have h := C8_promiseLimit_bound 2
  exact ⟨h.2.2.1 (by omega)
    [GateEvent.acquire, GateEvent.acquire, GateEvent.acquire,
      GateEvent.release, GateEvent.acquire],
    h.2.1 (by omega) 2, h.2.1 (by omega) 1⟩

/-- Events of one gated operation under a positive limit, distinguishing
how `await func()` ends: `enter` is an accepted caller (lines 87-91,
increments `inProgress` and starts `func`); `exitOk` is a normal return
(line 93 decrements); `exitErr` is `func` throwing or its promise
rejecting, which propagates out of the `await` before line 93 ever runs —
the decrement is skipped. -/
inductive OpEvent where
  | enter
  | exitOk
  | exitErr
  deriving DecidableEq

/-- Gate bookkeeping for the failure analysis: the live `inProgress`
counter plus trace counters of accepted entries, normal completions and
failed completions. -/
structure GateTrace where
  inProgress : Nat
  accepted : Nat
  finishedOk : Nat
  finishedErr : Nat
  deriving DecidableEq

/-- One transition of the gate with a positive limit, as executed by the
wrapper returned at lines 85-96: an accepted `enter` increments
`inProgress`; `exitOk` decrements it; `exitErr` leaves it untouched. -/
def promiseLimitOpStep (concurrency : Nat) (s : GateTrace) : OpEvent → GateTrace
  | .enter =>
    if s.inProgress < concurrency then
      ⟨s.inProgress + 1, s.accepted + 1, s.finishedOk, s.finishedErr⟩
    else s
  | .exitOk => ⟨s.inProgress - 1, s.accepted, s.finishedOk + 1, s.finishedErr⟩
  | .exitErr => ⟨s.inProgress, s.accepted, s.finishedOk, s.finishedErr + 1⟩

/-- Run the gate over a sequence of operation events. -/
def promiseLimitOpRun (concurrency : Nat) (s : GateTrace) (evs : List OpEvent) :
    GateTrace :=
  evs.foldl (promiseLimitOpStep concurrency) s

/-- Well-formed event sequences: an operation can only finish (normally or
by rejection) while some accepted operation has not finished yet. -/
inductive GateRunWF (concurrency : Nat) : GateTrace → List OpEvent → Prop where
  | nil (s : GateTrace) : GateRunWF concurrency s []
  | enter (s : GateTrace) (evs : List OpEvent) :
      GateRunWF concurrency (promiseLimitOpStep concurrency s OpEvent.enter) evs →
      GateRunWF concurrency s (OpEvent.enter :: evs)
  | exitOk (s : GateTrace) (evs : List OpEvent) :
      s.finishedOk + s.finishedErr < s.accepted →
      GateRunWF concurrency (promiseLimitOpStep concurrency s OpEvent.exitOk) evs →
      GateRunWF concurrency s (OpEvent.exitOk :: evs)
  | exitErr (s : GateTrace) (evs : List OpEvent) :
      s.finishedOk + s.finishedErr < s.accepted →
      GateRunWF concurrency (promiseLimitOpStep concurrency s OpEvent.exitErr) evs →
      GateRunWF concurrency s (OpEvent.exitErr :: evs)

theorem promiseLimitOpRun_invariant (concurrency : Nat) :
    ∀ (evs : List OpEvent) (s : GateTrace),
      GateRunWF concurrency s evs →
      s.inProgress + s.finishedOk = s.accepted →
      s.finishedOk + s.finishedErr ≤ s.accepted →
      (promiseLimitOpRun concurrency s evs).inProgress +
          (promiseLimitOpRun concurrency s evs).finishedOk =
        (promiseLimitOpRun concurrency s evs).accepted ∧
      (promiseLimitOpRun concurrency s evs).finishedOk +
          (promiseLimitOpRun concurrency s evs).finishedErr ≤
        (promiseLimitOpRun concurrency s evs).accepted := by
  intro evs
  induction evs with
  | nil => intro s _ h1 h2; exact ⟨h1, h2⟩
  | cons e es ih =>
    intro s hwf h1 h2
    cases hwf with
    | enter s evs hwf' =>
      refine ih _ hwf' ?_ ?_ <;>
        simp only [promiseLimitOpStep] <;>
        by_cases hlt : s.inProgress < concurrency <;>
        simp [hlt] <;> omega
    | exitOk s evs hok hwf' =>
      refine ih _ hwf' ?_ ?_ <;> simp only [promiseLimitOpStep] <;> omega
    | exitErr s evs herr hwf' =>
      refine ih _ hwf' ?_ ?_ <;> simp only [promiseLimitOpStep] <;> omega

/-- Claim C10: when a gated operation throws or rejects, `inProgress` is
never decremented for it, so in every well-formed run from the idle gate
the counter stays at least the number of failed operations — each failure
permanently occupies a slot — and once the failures reach the limit no
later caller is ever admitted. -/
theorem C10_failed_operation_leaks_slot (concurrency : Nat)
    (evs : List OpEvent)
    (hwf : GateRunWF concurrency ⟨0, 0, 0, 0⟩ evs) :
    (∀ s : GateTrace, promiseLimitOpStep concurrency s OpEvent.exitErr =
      ⟨s.inProgress, s.accepted, s.finishedOk, s.finishedErr + 1⟩) ∧
    (promiseLimitOpRun concurrency ⟨0, 0, 0, 0⟩ evs).finishedErr ≤
      (promiseLimitOpRun concurrency ⟨0, 0, 0, 0⟩ evs).inProgress ∧
    (concurrency ≤ (promiseLimitOpRun concurrency ⟨0, 0, 0, 0⟩ evs).finishedErr →
      promiseLimitOpStep concurrency (promiseLimitOpRun concurrency ⟨0, 0, 0, 0⟩ evs)
        OpEvent.enter = promiseLimitOpRun concurrency ⟨0, 0, 0, 0⟩ evs) := by
  have hinv := promiseLimitOpRun_invariant concurrency evs ⟨0, 0, 0, 0⟩ hwf rfl
    (by decide)
  refine ⟨fun s => rfl, by omega, ?_⟩
  intro hge
  simp only [promiseLimitOpStep]
  rw [if_neg (by omega)]

/-- Witness for C10: at limit 1, one accepted entry whose operation
rejects leaves the counter stuck at 1 with one recorded failure, and a
later `enter` is refused. -/
theorem C10_witness :
    (promiseLimitOpRun 1 ⟨0, 0, 0, 0⟩ [OpEvent.enter, OpEvent.exitErr]).finishedErr ≤
      (promiseLimitOpRun 1 ⟨0, 0, 0, 0⟩ [OpEvent.enter, OpEvent.exitErr]).inProgress ∧
    promiseLimitOpStep 1
      (promiseLimitOpRun 1 ⟨0, 0, 0, 0⟩ [OpEvent.enter, OpEvent.exitErr])
      OpEvent.enter =
      promiseLimitOpRun 1 ⟨0, 0, 0, 0⟩ [OpEvent.enter, OpEvent.exitErr] := by
  have h := C10_failed_operation_leaks_slot 1 [OpEvent.enter, OpEvent.exitErr]
    (GateRunWF.enter _ _ (GateRunWF.exitErr _ _ (by decide) (GateRunWF.nil _)))
  exact ⟨h.2.1, h.2.2 (by decide)⟩

end NpmOutdated
